/-
Verification of the near-duplicate image detection engine of
`check_for_duplicates.py` (Image Deduper).

The definitions below are a shallow embedding of the script's dedupe engine:
  * `hammingDistance` models `imagehash` hash subtraction (count of differing
    bits between two fixed-length bit vectors, the value of `A["hash"] - B["hash"]`);
  * `ImageRecord` models the dictionaries appended to `hashes` in the hashing
    loop (path, perceptual hash, resolution);
  * `dinsert` / `derase` / `containsKey` model Python dict assignment
    `d[k] = v`, deletion `del d[k]`, and membership `k in d` on
    insertion-ordered dictionaries (represented as association lists);
  * `anchorStep`, `innerLoop`, `clusterLoop`, `dedupe` model the comparison
    pass (lines 248-284): the outer loop over `i` with its cancellation check
    and `duplicates`-skip, the `kept.setdefault` call, and the inner loop over
    `j` with the threshold test, the resolution-tie exemption, and the two
    demotion branches.  The `events` field of `ClusterState` is ghost
    instrumentation recording each assignment into `duplicates` and each
    insertion into `kept`, together with the `duplicates` map at that moment,
    so that claims about "the moment an edge is recorded" can be stated;
  * `dedupeProcess` models the surrounding `dedupe_process` driver: the early
    return on an empty scan (lines 205-207) and, otherwise, the totals that
    are written into the JSON report (lines 360-371) plus the four report
    artifacts and the trash directory creation;
  * `copyKeptImages` models the kept-file materialization loop
    (lines 295-299): copy each kept record to its basename in the output
    directory unless the destination already exists.
-/
import Mathlib

namespace ImageDedup

/-- Line 43 of the script: `HASH_DISTANCE_THRESHOLD = 5`. -/
def HASH_DISTANCE_THRESHOLD : Nat := 5

/-- Hamming distance between two bit vectors: the number of positions where
they differ.  This is the value of `A["hash"] - B["hash"]` in the script
(`imagehash` defines hash subtraction as the count of differing bits). -/
def hammingDistance (a b : List Bool) : Nat :=
  (List.zipWith (fun x y => x != y) a b).count true

/-- One entry of the `hashes` list built by the hashing loop (lines 228-233):
the file path, the perceptual hash, and the pixel resolution `(w, h)`.
The derived `resolution_str` field is presentation-only and omitted. -/
structure ImageRecord where
  path : String
  hash : List Bool
  resolution : Nat × Nat
deriving DecidableEq, Repr

/-- Python `k in d` on an insertion-ordered dict represented as an
association list. -/
def containsKey {α : Type} (k : String) (m : List (String × α)) : Bool :=
  m.any (fun p => p.1 == k)

/-- Python `d[k]` lookup (first association wins; keys are unique in maps
built by `dinsert`). -/
def lookupKey {α : Type} (k : String) : List (String × α) → Option α
  | [] => none
  | (a, v) :: m => if a == k then some v else lookupKey k m

/-- Python `d[k] = v`: update the existing entry in place, or append a new
entry at the end (dicts preserve insertion order). -/
def dinsert {α : Type} (k : String) (v : α) : List (String × α) → List (String × α)
  | [] => [(k, v)]
  | (a, w) :: m => if a == k then (k, v) :: m else (a, w) :: dinsert k v m

/-- Python `del d[k]` (the script guards every deletion with `k in d`, so a
missing key simply leaves the list unchanged here). -/
def derase {α : Type} (k : String) : List (String × α) → List (String × α)
  | [] => []
  | (a, w) :: m => if a == k then m else (a, w) :: derase k m

/-- The duplicate map: removed path -> (kept path, hash distance), exactly the
`duplicates` dict of the script. -/
abbrev DupMap := List (String × (String × Nat))

/-- Ghost trace of the clustering pass: one event per assignment into
`duplicates` (an edge decision) and per insertion into `kept`.  Each event
carries the `duplicates` map as it was at that moment.  `anchorDemoted` is
`true` for the `else` branch (line 281, the anchor `A` is demoted) and
`false` for the `>=` branch (line 279, the inner record `B` is demoted). -/
inductive DEvent where
  | edge (removed keptPath : String) (dist : Nat) (anchorDemoted : Bool) (dupsBefore : DupMap)
  | keptAdd (p : String) (dupsBefore : DupMap)
deriving DecidableEq, Repr

/-- The mutable state of the comparison pass: the `kept` dict, the
`duplicates` dict (both insertion-ordered), and the ghost event trace. -/
structure ClusterState where
  kept : List (String × ImageRecord)
  duplicates : DupMap
  events : List DEvent
deriving DecidableEq, Repr

/-- Line 261: `kept.setdefault(A_path, A)` — insert the anchor as a kept
candidate unless it is already present. -/
def anchorStep (A : ImageRecord) (st : ClusterState) : ClusterState :=
  if containsKey A.path st.kept = true then st
  else { st with kept := st.kept ++ [(A.path, A)],
                 events := st.events ++ [DEvent.keptAdd A.path st.duplicates] }

/-- Lines 263-284: the inner loop over `j`.  `A` is the (possibly stale)
anchor, `rest` the records at indices `i+1..n-1`. -/
def innerLoop (A : ImageRecord) : List ImageRecord → ClusterState → ClusterState
  | [], st => st
  | B :: rest, st =>
    if containsKey B.path st.duplicates = true then
      innerLoop A rest st
    else
      if hammingDistance A.hash B.hash ≤ HASH_DISTANCE_THRESHOLD then
        if A.resolution = B.resolution then
          innerLoop A rest st
        else
          if A.resolution.1 * A.resolution.2 ≥ B.resolution.1 * B.resolution.2 then
            innerLoop A rest
              { st with
                duplicates := dinsert B.path (A.path, hammingDistance A.hash B.hash) st.duplicates,
                events := st.events ++
                  [DEvent.edge B.path A.path (hammingDistance A.hash B.hash) false st.duplicates] }
          else
            innerLoop A rest
              { kept := dinsert B.path B (derase A.path st.kept),
                duplicates := dinsert A.path (B.path, hammingDistance A.hash B.hash) st.duplicates,
                events := st.events ++
                  [DEvent.edge A.path B.path (hammingDistance A.hash B.hash) true st.duplicates,
                   DEvent.keptAdd B.path
                     (dinsert A.path (B.path, hammingDistance A.hash B.hash) st.duplicates)] }
      else
        innerLoop A rest st

/-- Lines 251-284: the outer loop over `i`.  `flag i` is the value of
`self.running` observed at the top of outer iteration `i`; when it is
`false` the function returns immediately (line 252-253), leaving the maps in
their partial state — the returned `Bool` is `true` iff the pass ran to
completion. -/
def clusterLoop (flag : Nat → Bool) : Nat → List ImageRecord → ClusterState → ClusterState × Bool
  | _, [], st => (st, true)
  | i, A :: rest, st =>
    if flag i = true then
      if containsKey A.path st.duplicates = true then
        clusterLoop flag (i + 1) rest st
      else
        clusterLoop flag (i + 1) rest (innerLoop A rest (anchorStep A st))
    else
      (st, false)

/-- A full, uncancelled comparison pass from the empty maps
(`kept = {}`, `duplicates = {}`, lines 248-249). -/
def dedupe (recs : List ImageRecord) : ClusterState :=
  (clusterLoop (fun _ => true) 0 recs ⟨[], [], []⟩).1

/-- A comparison pass under a cancellation schedule (`flag i` = value of
`self.running` read at outer iteration `i`). -/
def dedupeCancellable (flag : Nat → Bool) (recs : List ImageRecord) : ClusterState × Bool :=
  clusterLoop flag 0 recs ⟨[], [], []⟩

/-- Observable outcome of one `dedupe_process` run: whether the trash
directory was created (line 293), which report artifacts were written, and
the `(total_scanned, total_kept, total_duplicates)` triple of the JSON
report (lines 365-367). -/
structure RunOutput where
  trashCreated : Bool
  reports : List String
  totals : Option (Nat × Nat × Nat)
deriving DecidableEq, Repr

/-- Lines 200-401 of `dedupe_process`, driven by the enumerated file list.
Each enumerated file either decodes to `some` ImageRecord or fails with an
exception (`none`); failures are logged and skipped (lines 235-236), and
`total_files = len(images)` counts all enumerated files (line 201).  When
`total_files == 0` the function returns before creating the trash directory
or writing any report (lines 205-207). -/
def dedupeProcess (files : List (Option ImageRecord)) : RunOutput :=
  if files.length = 0 then
    { trashCreated := false, reports := [], totals := none }
  else
    { trashCreated := true,
      reports := ["duplicate_log.csv", "duplicate_details.csv",
                  "dedupe_session.json", "dedupe_session_report.md"],
      totals := some (files.length,
                      (dedupe (files.filterMap id)).kept.length,
                      (dedupe (files.filterMap id)).duplicates.length) }

/-- Lines 295-299: the kept-image copy loop.  `basename` abstracts
`os.path.basename`, `content` the bytes of a source file, and the output
directory is an association list from destination name to content.  A
destination that already exists is left untouched. -/
def copyKeptImages (basename : String → String) (content : String → String) :
    List ImageRecord → List (String × String) → List (String × String)
  | [], fs => fs
  | k :: ks, fs =>
    copyKeptImages basename content ks
      (if containsKey (basename k.path) fs = true then fs
       else fs ++ [(basename k.path, content k.path)])

/-! Spec-side predicates, formalizing the claims' words so that they can be
compared with the behaviour of the embedded code. -/

/-- Formalizes C2's invariant as stated by the spec: at the moment any edge is
recorded, its `kept_path` is not a key of the duplicates map. -/
def specEdgeKeptNotDup (e : DEvent) : Bool :=
  match e with
  | DEvent.edge _ keptPath _ _ dupsBefore => !(containsKey keptPath dupsBefore)
  | DEvent.keptAdd _ _ => true

/-- The part of C2's invariant that the algorithm does enforce: it holds for
every edge recorded by the anchor-demotion branch (line 281). -/
def anchorEdgeOK (e : DEvent) : Bool :=
  match e with
  | DEvent.edge _ keptPath _ anchorDemoted dupsBefore =>
      if anchorDemoted then !(containsKey keptPath dupsBefore) else true
  | DEvent.keptAdd _ _ => true

/-- A path that is already a duplicates key is never (re-)inserted into the
kept map: every kept-insertion event targets a non-duplicate path. -/
def keptAddOK (e : DEvent) : Bool :=
  match e with
  | DEvent.edge _ _ _ _ _ => true
  | DEvent.keptAdd p dupsBefore => !(containsKey p dupsBefore)

/-- Formalizes C3's uniqueness as stated by the spec: no later edge event
re-records the same removed path with a different `(kept_path, distance)`. -/
def specAtMostOneEdge : List DEvent → Bool
  | [] => true
  | DEvent.keptAdd _ _ :: rest => specAtMostOneEdge rest
  | DEvent.edge r k d _ _ :: rest =>
    rest.all (fun e =>
      match e with
      | DEvent.edge r2 k2 d2 _ _ => !(r == r2) || ((k == k2) && (d == d2))
      | DEvent.keptAdd _ _ => true) &&
    specAtMostOneEdge rest

/-- Formalizes "an edge is recorded for the pair {p, q}" (C7): some edge
event of the trace demotes one of the two in favour of the other. -/
def pairEdge (evs : List DEvent) (p q : String) : Bool :=
  evs.any (fun e =>
    match e with
    | DEvent.edge r k _ _ _ => ((r == p) && (k == q)) || ((r == q) && (k == p))
    | DEvent.keptAdd _ _ => false)

/-! ### Basic lemmas about the dict operations -/

@[simp] theorem containsKey_nil {α : Type} (x : String) :
    containsKey x ([] : List (String × α)) = false := rfl

@[simp] theorem containsKey_cons {α : Type} (x a : String) (v : α) (m : List (String × α)) :
    containsKey x ((a, v) :: m) = ((a == x) || containsKey x m) := rfl

@[simp] theorem containsKey_append {α : Type} (x : String) (m l : List (String × α)) :
    containsKey x (m ++ l) = (containsKey x m || containsKey x l) := by
  simp [containsKey, List.any_append]

theorem containsKey_dinsert {α : Type} (x k : String) (v : α) (m : List (String × α)) :
    containsKey x (dinsert k v m) = ((k == x) || containsKey x m) := by
  induction m with
  | nil => simp [dinsert]
  | cons p m ih =>
    obtain ⟨a, w⟩ := p
    by_cases h : a = k
    · subst h
      simp [dinsert, Bool.or_assoc, Bool.or_self]
    · simp only [dinsert, beq_iff_eq, if_neg h, containsKey_cons, ih]
      rw [Bool.or_left_comm]

theorem containsKey_derase_of_ne {α : Type} {k x : String} (h : k ≠ x)
    (m : List (String × α)) : containsKey x (derase k m) = containsKey x m := by
  induction m with
  | nil => simp [derase]
  | cons p m ih =>
    obtain ⟨a, w⟩ := p
    by_cases ha : a = k
    · subst ha
      have : (a == x) = false := beq_eq_false_iff_ne.mpr h
      simp [derase, this]
    · simp [derase, ha, ih]

theorem lookupKey_append_left {α : Type} {x : String} {m : List (String × α)}
    (h : containsKey x m = true) (l : List (String × α)) :
    lookupKey x (m ++ l) = lookupKey x m := by
  induction m with
  | nil => simp [containsKey] at h
  | cons p m ih =>
    obtain ⟨a, w⟩ := p
    by_cases ha : a = x
    · simp [lookupKey, ha]
    · have hb : (a == x) = false := beq_eq_false_iff_ne.mpr ha
      simp only [containsKey_cons, hb, Bool.false_or] at h
      simp [lookupKey, hb, ih h]

theorem containsKey_eq_true_iff {α : Type} (x : String) (m : List (String × α)) :
    containsKey x m = true ↔ x ∈ m.map Prod.fst := by
  induction m with
  | nil => simp [containsKey]
  | cons p m ih =>
    obtain ⟨a, w⟩ := p
    simp only [containsKey_cons, Bool.or_eq_true, beq_iff_eq, ih, List.map_cons,
      List.mem_cons]
    constructor
    · rintro (rfl | h)
      · exact Or.inl rfl
      · exact Or.inr h
    · rintro (rfl | h)
      · exact Or.inl rfl
      · exact Or.inr h

theorem dinsert_of_containsKey_eq_false {α : Type} {k : String} {m : List (String × α)}
    (h : containsKey k m = false) (v : α) : dinsert k v m = m ++ [(k, v)] := by
  induction m with
  | nil => simp [dinsert]
  | cons p m ih =>
    obtain ⟨a, w⟩ := p
    simp only [containsKey_cons, Bool.or_eq_false_iff] at h
    simp [dinsert, h.1, ih h.2]

theorem keys_dinsert_of_containsKey {α : Type} {k : String} {m : List (String × α)}
    (h : containsKey k m = true) (v : α) :
    (dinsert k v m).map Prod.fst = m.map Prod.fst := by
  induction m with
  | nil => simp [containsKey] at h
  | cons p m ih =>
    obtain ⟨a, w⟩ := p
    by_cases ha : a = k
    · subst ha
      simp [dinsert]
    · have hb : (a == k) = false := beq_eq_false_iff_ne.mpr ha
      simp only [containsKey_cons, hb, Bool.false_or] at h
      simp [dinsert, hb, ih h]

theorem nodup_keys_dinsert {α : Type} {m : List (String × α)}
    (h : (m.map Prod.fst).Nodup) (k : String) (v : α) :
    ((dinsert k v m).map Prod.fst).Nodup := by
  rcases hc : containsKey k m with _ | _
  · rw [dinsert_of_containsKey_eq_false hc]
    have hk : k ∉ m.map Prod.fst := by
      intro hmem
      rw [← containsKey_eq_true_iff] at hmem
      rw [hc] at hmem
      exact Bool.false_ne_true hmem
    simp [List.nodup_append, h, hk]
  · rw [keys_dinsert_of_containsKey hc]
    exact h

theorem keys_derase_sublist {α : Type} (k : String) (m : List (String × α)) :
    ((derase k m).map Prod.fst).Sublist (m.map Prod.fst) := by
  induction m with
  | nil => simp [derase]
  | cons p m ih =>
    obtain ⟨a, w⟩ := p
    by_cases ha : a = k
    · subst ha
      simp only [derase, beq_self_eq_true, if_pos rfl, List.map_cons]
      exact (List.sublist_cons_self a (m.map Prod.fst))
    · have hb : (a == k) = false := beq_eq_false_iff_ne.mpr ha
      simp only [derase, hb, Bool.false_eq_true, if_false, List.map_cons]
      exact List.Sublist.cons₂ a ih

theorem nodup_keys_derase {α : Type} {m : List (String × α)}
    (h : (m.map Prod.fst).Nodup) (k : String) :
    ((derase k m).map Prod.fst).Nodup :=
  h.sublist (keys_derase_sublist k m)

/-! ### Invariants of the comparison pass -/

@[simp] theorem anchorStep_duplicates (A : ImageRecord) (st : ClusterState) :
    (anchorStep A st).duplicates = st.duplicates := by
  unfold anchorStep
  split <;> rfl

theorem containsKey_anchorStep_kept (x : String) (A : ImageRecord) (st : ClusterState) :
    containsKey x (anchorStep A st).kept = (containsKey x st.kept || (A.path == x)) := by
  unfold anchorStep
  split
  · next h =>
    rcases hx : (A.path == x) with _ | _
    · simp
    · have : A.path = x := beq_iff_eq.mp hx
      subst this
      simp [h]
  · simp [containsKey]

theorem innerLoop_dups_mono (A : ImageRecord) (rest : List ImageRecord) :
    ∀ st : ClusterState, ∀ x : String, containsKey x st.duplicates = true →
      containsKey x (innerLoop A rest st).duplicates = true := by
  induction rest with
  | nil => intro st x hx; simpa [innerLoop] using hx
  | cons B rest ih =>
    intro st x hx
    simp only [innerLoop]
    split
    · exact ih st x hx
    · split
      · split
        · exact ih st x hx
        · split
          · apply ih
            simp [containsKey_dinsert, hx]
          · apply ih
            simp [containsKey_dinsert, hx]
      · exact ih st x hx

theorem innerLoop_union_mono (A : ImageRecord) (rest : List ImageRecord) :
    ∀ st : ClusterState, ∀ x : String,
      (containsKey x st.kept || containsKey x st.duplicates) = true →
      (containsKey x (innerLoop A rest st).kept ||
       containsKey x (innerLoop A rest st).duplicates) = true := by
  induction rest with
  | nil => intro st x hx; simpa [innerLoop] using hx
  | cons B rest ih =>
    intro st x hx
    simp only [innerLoop]
    split
    · exact ih st x hx
    · split
      · split
        · exact ih st x hx
        · split
          · apply ih
            simp only [containsKey_dinsert]
            have hx' : containsKey x st.kept = true ∨ containsKey x st.duplicates = true := by
              simpa using hx
            rcases hx' with h | h
            · simp [h]
            · simp [h]
          · apply ih
            simp only [containsKey_dinsert]
            have hx' : containsKey x st.kept = true ∨ containsKey x st.duplicates = true := by
              simpa using hx
            rcases hx' with h | h
            · by_cases hax : A.path = x
              · simp [hax]
              · rw [containsKey_derase_of_ne hax]
                simp [h]
            · simp [h]
      · exact ih st x hx

theorem innerLoop_nodup_keys (A : ImageRecord) (rest : List ImageRecord) :
    ∀ st : ClusterState,
      (st.kept.map Prod.fst).Nodup → (st.duplicates.map Prod.fst).Nodup →
      ((innerLoop A rest st).kept.map Prod.fst).Nodup ∧
      ((innerLoop A rest st).duplicates.map Prod.fst).Nodup := by
  induction rest with
  | nil => intro st h1 h2; simpa [innerLoop] using ⟨h1, h2⟩
  | cons B rest ih =>
    intro st h1 h2
    simp only [innerLoop]
    split
    · exact ih st h1 h2
    · split
      · split
        · exact ih st h1 h2
        · split
          · exact ih _ h1 (nodup_keys_dinsert h2 _ _)
          · exact ih _ (nodup_keys_dinsert (nodup_keys_derase h1 _) _ _)
              (nodup_keys_dinsert h2 _ _)
      · exact ih st h1 h2

theorem innerLoop_events_anchorOK (A : ImageRecord) (rest : List ImageRecord) :
    ∀ st : ClusterState, (∀ e ∈ st.events, anchorEdgeOK e = true) →
      ∀ e ∈ (innerLoop A rest st).events, anchorEdgeOK e = true := by
  induction rest with
  | nil => intro st h; simpa [innerLoop] using h
  | cons B rest ih =>
    intro st h
    simp only [innerLoop]
    split
    · exact ih st h
    · next hB =>
      split
      · split
        · exact ih st h
        · split
          · apply ih
            intro e he
            simp only [List.mem_append, List.mem_singleton] at he
            rcases he with he | he
            · exact h e he
            · subst he
              simp [anchorEdgeOK]
          · apply ih
            intro e he
            simp only [List.mem_append, List.mem_cons, List.not_mem_nil, or_false] at he
            rcases he with he | he | he
            · exact h e he
            · subst he
              have hB' : containsKey B.path st.duplicates = false :=
                Bool.eq_false_iff.mpr hB
              simp [anchorEdgeOK, hB']
            · subst he
              simp [anchorEdgeOK]
      · exact ih st h

theorem innerLoop_events_keptAddOK (A : ImageRecord) (rest : List ImageRecord) :
    A.path ∉ rest.map ImageRecord.path →
    ∀ st : ClusterState, (∀ e ∈ st.events, keptAddOK e = true) →
      ∀ e ∈ (innerLoop A rest st).events, keptAddOK e = true := by
  induction rest with
  | nil => intro _ st h; simpa [innerLoop] using h
  | cons B rest ih =>
    intro hA st h
    simp only [List.map_cons, List.mem_cons, not_or] at hA
    obtain ⟨hAB, hArest⟩ := hA
    simp only [innerLoop]
    split
    · exact ih hArest st h
    · next hB =>
      split
      · split
        · exact ih hArest st h
        · split
          · apply ih hArest
            intro e he
            simp only [List.mem_append, List.mem_singleton] at he
            rcases he with he | he
            · exact h e he
            · subst he
              simp [keptAddOK]
          · apply ih hArest
            intro e he
            simp only [List.mem_append, List.mem_cons, List.not_mem_nil, or_false] at he
            rcases he with he | he | he
            · exact h e he
            · subst he
              simp [keptAddOK]
            · subst he
              have hB' : containsKey B.path st.duplicates = false :=
                Bool.eq_false_iff.mpr hB
              have hne : (A.path == B.path) = false :=
                beq_eq_false_iff_ne.mpr hAB
              simp [keptAddOK, containsKey_dinsert, hB', hne]
      · exact ih hArest st h

theorem clusterLoop_union_mono (flag : Nat → Bool) (recs : List ImageRecord) :
    ∀ i : Nat, ∀ st : ClusterState, ∀ x : String,
      (containsKey x st.kept || containsKey x st.duplicates) = true →
      (containsKey x (clusterLoop flag i recs st).1.kept ||
       containsKey x (clusterLoop flag i recs st).1.duplicates) = true := by
  induction recs with
  | nil => intro i st x hx; simpa [clusterLoop] using hx
  | cons A rest ih =>
    intro i st x hx
    simp only [clusterLoop]
    split
    · split
      · exact ih _ st x hx
      · apply ih
        apply innerLoop_union_mono
        have hx' : containsKey x st.kept = true ∨ containsKey x st.duplicates = true := by
          simpa using hx
        rcases hx' with h | h
        · simp [containsKey_anchorStep_kept, h]
        · simp [h]
    · simpa using hx

theorem clusterLoop_nodup_keys (flag : Nat → Bool) (recs : List ImageRecord) :
    ∀ i : Nat, ∀ st : ClusterState,
      (st.kept.map Prod.fst).Nodup → (st.duplicates.map Prod.fst).Nodup →
      ((clusterLoop flag i recs st).1.kept.map Prod.fst).Nodup ∧
      ((clusterLoop flag i recs st).1.duplicates.map Prod.fst).Nodup := by
  induction recs with
  | nil => intro i st h1 h2; simpa [clusterLoop] using ⟨h1, h2⟩
  | cons A rest ih =>
    intro i st h1 h2
    simp only [clusterLoop]
    split
    · split
      · exact ih _ st h1 h2
      · next hA =>
        have hkeptN : ((anchorStep A st).kept.map Prod.fst).Nodup := by
          unfold anchorStep
          split
          · exact h1
          · next hnk =>
            have hk : A.path ∉ st.kept.map Prod.fst := by
              intro hmem
              exact hnk ((containsKey_eq_true_iff _ _).mpr hmem)
            simp [List.nodup_append, h1, hk]
        have hdupN : ((anchorStep A st).duplicates.map Prod.fst).Nodup := by
          rw [anchorStep_duplicates]
          exact h2
        obtain ⟨hi1, hi2⟩ := innerLoop_nodup_keys A rest (anchorStep A st) hkeptN hdupN
        exact ih _ _ hi1 hi2
    · simpa using ⟨h1, h2⟩

theorem clusterLoop_events_anchorOK (flag : Nat → Bool) (recs : List ImageRecord) :
    ∀ i : Nat, ∀ st : ClusterState, (∀ e ∈ st.events, anchorEdgeOK e = true) →
      ∀ e ∈ (clusterLoop flag i recs st).1.events, anchorEdgeOK e = true := by
  induction recs with
  | nil => intro i st h; simpa [clusterLoop] using h
  | cons A rest ih =>
    intro i st h
    simp only [clusterLoop]
    split
    · split
      · exact ih _ st h
      · apply ih
        apply innerLoop_events_anchorOK
        intro e he
        unfold anchorStep at he
        split at he
        · exact h e he
        · simp only [List.mem_append, List.mem_cons, List.not_mem_nil, or_false] at he
          rcases he with he | he
          · exact h e he
          · subst he
            simp [anchorEdgeOK]
    · simpa using h

theorem clusterLoop_events_keptAddOK (flag : Nat → Bool) (recs : List ImageRecord) :
    (recs.map ImageRecord.path).Nodup →
    ∀ i : Nat, ∀ st : ClusterState, (∀ e ∈ st.events, keptAddOK e = true) →
      ∀ e ∈ (clusterLoop flag i recs st).1.events, keptAddOK e = true := by
  induction recs with
  | nil => intro _ i st h; simpa [clusterLoop] using h
  | cons A rest ih =>
    intro hnd i st h
    simp only [List.map_cons, List.nodup_cons] at hnd
    obtain ⟨hArest, hndrest⟩ := hnd
    simp only [clusterLoop]
    split
    · split
      · exact ih hndrest _ st h
      · next hA =>
        apply ih hndrest
        apply innerLoop_events_keptAddOK A rest hArest
        intro e he
        unfold anchorStep at he
        split at he
        · exact h e he
        · simp only [List.mem_append, List.mem_cons, List.not_mem_nil, or_false] at he
          rcases he with he | he
          · exact h e he
          · subst he
            have hA' : containsKey A.path st.duplicates = false :=
              Bool.eq_false_iff.mpr hA
            simp [keptAddOK, hA']
    · simpa using h

theorem clusterLoop_coverage (recs : List ImageRecord) :
    ∀ i : Nat, ∀ st : ClusterState, ∀ A ∈ recs,
      (containsKey A.path (clusterLoop (fun _ => true) i recs st).1.kept ||
       containsKey A.path (clusterLoop (fun _ => true) i recs st).1.duplicates) = true := by
  induction recs with
  | nil => intro i st A hA; simp at hA
  | cons B rest ih =>
    intro i st A hA
    simp only [List.mem_cons] at hA
    have hstep : clusterLoop (fun _ => true) i (B :: rest) st =
        if containsKey B.path st.duplicates = true then
          clusterLoop (fun _ => true) (i + 1) rest st
        else
          clusterLoop (fun _ => true) (i + 1) rest (innerLoop B rest (anchorStep B st)) := by
      simp [clusterLoop]
    rw [hstep]
    rcases hA with rfl | hA
    · by_cases hdup : containsKey A.path st.duplicates = true
      · rw [if_pos hdup]
        apply clusterLoop_union_mono
        simp [hdup]
      · rw [if_neg hdup]
        apply clusterLoop_union_mono
        apply innerLoop_union_mono
        simp [containsKey_anchorStep_kept]
    · by_cases hdup : containsKey B.path st.duplicates = true
      · rw [if_pos hdup]
        exact ih _ st A hA
      · rw [if_neg hdup]
        exact ih _ _ A hA

theorem clusterLoop_flag_agree (flag : Nat → Bool) (h : ∀ j : Nat, flag j = true)
    (recs : List ImageRecord) :
    ∀ i : Nat, ∀ st : ClusterState,
      clusterLoop flag i recs st = clusterLoop (fun _ => true) i recs st := by
  induction recs with
  | nil => intro i st; rfl
  | cons A rest ih =>
    intro i st
    simp only [clusterLoop, h i, eq_self_iff_true, if_true]
    split
    · exact ih _ st
    · exact ih _ _

theorem clusterLoop_abort (flag : Nat → Bool) (i : Nat) (h : flag i = false)
    (A : ImageRecord) (rest : List ImageRecord) (st : ClusterState) :
    clusterLoop flag i (A :: rest) st = (st, false) := by
  simp [clusterLoop, h]

/-! ### Lemmas about the Materializer copy loop -/

theorem copyKeptImages_contains_mono (basename content : String → String)
    (ks : List ImageRecord) :
    ∀ fs : List (String × String), ∀ x : String, containsKey x fs = true →
      containsKey x (copyKeptImages basename content ks fs) = true := by
  induction ks with
  | nil => intro fs x hx; simpa [copyKeptImages] using hx
  | cons k ks ih =>
    intro fs x hx
    simp only [copyKeptImages]
    split
    · exact ih fs x hx
    · apply ih
      simp [hx]

theorem copyKeptImages_preserves (basename content : String → String)
    (ks : List ImageRecord) :
    ∀ fs : List (String × String), ∀ x : String, containsKey x fs = true →
      lookupKey x (copyKeptImages basename content ks fs) = lookupKey x fs := by
  induction ks with
  | nil => intro fs x hx; simp [copyKeptImages]
  | cons k ks ih =>
    intro fs x hx
    simp only [copyKeptImages]
    split
    · exact ih fs x hx
    · rw [ih _ x (by simp [hx]), lookupKey_append_left hx]

theorem copyKeptImages_ensures (basename content : String → String)
    (ks : List ImageRecord) :
    ∀ fs : List (String × String), ∀ k ∈ ks,
      containsKey (basename k.path) (copyKeptImages basename content ks fs) = true := by
  induction ks with
  | nil => intro fs k hk; simp at hk
  | cons k0 ks ih =>
    intro fs k hk
    simp only [List.mem_cons] at hk
    simp only [copyKeptImages]
    rcases hk with rfl | hk
    · apply copyKeptImages_contains_mono
      split
      · next h => exact h
      · simp [containsKey]
    · exact ih _ k hk

theorem copyKeptImages_noop (basename content : String → String)
    (ks : List ImageRecord) :
    ∀ fs : List (String × String),
      (∀ k ∈ ks, containsKey (basename k.path) fs = true) →
      copyKeptImages basename content ks fs = fs := by
  induction ks with
  | nil => intro fs _; rfl
  | cons k0 ks ih =>
    intro fs h
    have h0 : containsKey (basename k0.path) fs = true := h k0 (List.mem_cons_self k0 ks)
    simp only [copyKeptImages, h0, if_pos rfl]
    exact ih fs (fun k hk => h k (List.mem_cons_of_mem k0 hk))

/-! ### Miscellaneous helpers -/

theorem length_filterMap_id_of_all_isSome (files : List (Option ImageRecord))
    (h : ∀ f ∈ files, f.isSome = true) :
    (files.filterMap id).length = files.length := by
  induction files with
  | nil => rfl
  | cons f files ih =>
    obtain ⟨a, rfl⟩ := Option.isSome_iff_exists.mp (h f (List.mem_cons_self f files))
    simp only [List.filterMap_cons, id, List.length_cons]
    rw [ih (fun g hg => h g (List.mem_cons_of_mem (some a) hg))]

/-! ### Closed-form results for two-record runs -/

theorem clusterLoop_true_completes (recs : List ImageRecord) :
    ∀ i : Nat, ∀ st : ClusterState,
      (clusterLoop (fun _ => true) i recs st).2 = true := by
  induction recs with
  | nil => intro i st; rfl
  | cons A rest ih =>
    intro i st
    have hstep : clusterLoop (fun _ => true) i (A :: rest) st =
        if containsKey A.path st.duplicates = true then
          clusterLoop (fun _ => true) (i + 1) rest st
        else
          clusterLoop (fun _ => true) (i + 1) rest (innerLoop A rest (anchorStep A st)) := by
      simp [clusterLoop]
    rw [hstep]
    split
    · exact ih _ st
    · exact ih _ _

theorem dedupe_pair_ge (A B : ImageRecord)
    (hd : hammingDistance A.hash B.hash ≤ HASH_DISTANCE_THRESHOLD)
    (hr : A.resolution ≠ B.resolution)
    (ha : A.resolution.1 * A.resolution.2 ≥ B.resolution.1 * B.resolution.2) :
    dedupe [A, B] =
      ⟨[(A.path, A)], [(B.path, (A.path, hammingDistance A.hash B.hash))],
       [DEvent.keptAdd A.path [],
        DEvent.edge B.path A.path (hammingDistance A.hash B.hash) false []]⟩ := by
  simp [dedupe, clusterLoop, innerLoop, anchorStep, containsKey, dinsert, hd, hr, ha]

theorem dedupe_pair_lt (A B : ImageRecord) (hp : A.path ≠ B.path)
    (hd : hammingDistance A.hash B.hash ≤ HASH_DISTANCE_THRESHOLD)
    (hr : A.resolution ≠ B.resolution)
    (ha : ¬ A.resolution.1 * A.resolution.2 ≥ B.resolution.1 * B.resolution.2) :
    dedupe [A, B] =
      ⟨[(B.path, B)], [(A.path, (B.path, hammingDistance A.hash B.hash))],
       [DEvent.keptAdd A.path [],
        DEvent.edge A.path B.path (hammingDistance A.hash B.hash) true [],
        DEvent.keptAdd B.path [(A.path, (B.path, hammingDistance A.hash B.hash))]]⟩ := by
  have hab : (A.path == B.path) = false := beq_eq_false_iff_ne.mpr hp
  simp [dedupe, clusterLoop, innerLoop, anchorStep, containsKey, dinsert, derase,
    hd, hr, ha, hab]

theorem dedupe_pair_far (A B : ImageRecord) (hp : A.path ≠ B.path)
    (hd : ¬ hammingDistance A.hash B.hash ≤ HASH_DISTANCE_THRESHOLD) :
    dedupe [A, B] =
      ⟨[(A.path, A), (B.path, B)], [],
       [DEvent.keptAdd A.path [], DEvent.keptAdd B.path []]⟩ := by
  have hab : (A.path == B.path) = false := beq_eq_false_iff_ne.mpr hp
  simp [dedupe, clusterLoop, innerLoop, anchorStep, containsKey, hd, hab]

theorem dedupe_pair_resEq (A B : ImageRecord) (hp : A.path ≠ B.path)
    (hr : A.resolution = B.resolution) :
    dedupe [A, B] =
      ⟨[(A.path, A), (B.path, B)], [],
       [DEvent.keptAdd A.path [], DEvent.keptAdd B.path []]⟩ := by
  have hab : (A.path == B.path) = false := beq_eq_false_iff_ne.mpr hp
  by_cases hd : hammingDistance A.hash B.hash ≤ HASH_DISTANCE_THRESHOLD
  · simp [dedupe, clusterLoop, innerLoop, anchorStep, containsKey, hd, hr, hab]
  · simp [dedupe, clusterLoop, innerLoop, anchorStep, containsKey, hd, hab]

/-! ### Claim C1 — partition property -/

/-- Input records for the C1 analysis: pairwise hash distances are
d(a,b) = 6, d(a,c) = 3, d(b,c) = 3; areas are 1, 5, 4. -/
def c1A : ImageRecord := ⟨"a", [false, false, false, false, false, false, false, false], (1, 1)⟩

def c1B : ImageRecord := ⟨"b", [true, true, true, true, true, true, false, false], (5, 1)⟩

def c1C : ImageRecord := ⟨"c", [true, true, true, false, false, false, false, false], (2, 2)⟩

/-- C1 (counterexample): the partition property fails on the code.  In the run
on `[c1A, c1B, c1C]` (distinct paths), record `c1C` is promoted into `kept`
while demoting `c1A`, and is later demoted by `c1B` through the `>=` branch,
which never removes it from `kept` — so path "c" ends the pass in BOTH the
kept map and the duplicates map. -/
theorem C1_partition_counterexample :
    (([c1A, c1B, c1C].map ImageRecord.path).Nodup) ∧
    containsKey "c" (dedupe [c1A, c1B, c1C]).kept = true ∧
    containsKey "c" (dedupe [c1A, c1B, c1C]).duplicates = true := by
  decide

/-- C1 (amended): every input record's path appears, when the clustering pass
finishes, in AT LEAST one of the kept map and the duplicates map (never
neither); it can appear in both when a record promoted into the kept map is
later demoted through the greater-area branch. -/
theorem C1_partition_amended (recs : List ImageRecord)
    (hnd : (recs.map ImageRecord.path).Nodup) (A : ImageRecord) (hA : A ∈ recs) :
    containsKey A.path (dedupe recs).kept = true ∨
    containsKey A.path (dedupe recs).duplicates = true := by
  have h := clusterLoop_coverage recs 0 ⟨[], [], []⟩ A hA
  simpa [dedupe] using h

/-- Witness for C1 (amended) at a concrete one-record run. -/
theorem C1_partition_amended_witness :
    containsKey "a" (dedupe [⟨"a", [false], (1, 1)⟩]).kept = true ∨
    containsKey "a" (dedupe [⟨"a", [false], (1, 1)⟩]).duplicates = true :=
  C1_partition_amended [⟨"a", [false], (1, 1)⟩] (by decide) ⟨"a", [false], (1, 1)⟩
    (by decide)

/-! ### Claim C2 — kept_path never a duplicates key at recording time -/

/-- Input records for the C2 analysis: all hashes equal, areas 4, 5, 3. -/
def c2A : ImageRecord := ⟨"a", [false], (2, 2)⟩

def c2B : ImageRecord := ⟨"b", [false], (1, 5)⟩

def c2C : ImageRecord := ⟨"c", [false], (1, 3)⟩

/-- C2 (counterexample): the invariant fails on the code.  In the run on
`[c2A, c2B, c2C]` (distinct paths), anchor `c2A` is demoted by `c2B`, and the
stale anchor then wins on area against `c2C`: the edge `c -> (a, 0)` is
recorded while "a" is already a key of the duplicates map. -/
theorem C2_edge_invariant_counterexample :
    (([c2A, c2B, c2C].map ImageRecord.path).Nodup) ∧
    (dedupe [c2A, c2B, c2C]).events.all specEdgeKeptNotDup = false := by
  decide

/-- C2 (amended): the invariant holds for every edge recorded by the
anchor-demotion branch (the recorded kept_path is the inner record, which the
loop has just checked is not a duplicates key); an edge recorded by a stale,
already-demoted anchor through the greater-area branch may cite a kept_path
that is already a duplicates key. -/
theorem C2_edge_invariant_amended (recs : List ImageRecord) (e : DEvent)
    (he : e ∈ (dedupe recs).events) : anchorEdgeOK e = true :=
  clusterLoop_events_anchorOK (fun _ => true) recs 0 ⟨[], [], []⟩
    (fun e' he' => absurd he' (List.not_mem_nil e')) e he

/-- Witness for C2 (amended) at a concrete run with an anchor-demotion edge. -/
theorem C2_edge_invariant_amended_witness :
    anchorEdgeOK (DEvent.edge "a" "b" 0 true []) = true :=
  C2_edge_invariant_amended [⟨"a", [false], (1, 1)⟩, ⟨"b", [false], (1, 2)⟩]
    (DEvent.edge "a" "b" 0 true []) (by decide)

/-! ### Claim C3 — at most one edge per removed path -/

/-- Input records for the C3 analysis: all hashes equal, areas 1 < 2 < 3. -/
def c3A : ImageRecord := ⟨"a", [false], (1, 1)⟩

def c3B : ImageRecord := ⟨"b", [false], (1, 2)⟩

def c3C : ImageRecord := ⟨"c", [false], (1, 3)⟩

/-- C3 (counterexample): uniqueness of the recorded edge fails on the code.
In the run on `[c3A, c3B, c3C]` (distinct paths), anchor `c3A` is demoted by
`c3B` (edge `a -> (b, 0)`), and the stale anchor is demoted AGAIN by `c3C`,
overwriting the entry with `a -> (c, 0)` — a different kept_path. -/
theorem C3_unique_edge_counterexample :
    (([c3A, c3B, c3C].map ImageRecord.path).Nodup) ∧
    specAtMostOneEdge (dedupe [c3A, c3B, c3C]).events = false := by
  decide

/-- C3 (amended): a removed path's duplicates entry CAN be overwritten with a
different (kept_path, distance) when that path is a stale anchor demoted a
second time within the same inner pass; however, once a path is a duplicates
key it is never (re-)inserted into the kept map: every insertion into the
kept map targets a path that is not a duplicates key at that moment. -/
theorem C3_unique_edge_amended (recs : List ImageRecord)
    (hnd : (recs.map ImageRecord.path).Nodup) (e : DEvent)
    (he : e ∈ (dedupe recs).events) : keptAddOK e = true :=
  clusterLoop_events_keptAddOK (fun _ => true) recs hnd 0 ⟨[], [], []⟩
    (fun e' he' => absurd he' (List.not_mem_nil e')) e he

/-- Witness for C3 (amended) at a concrete two-record run. -/
theorem C3_unique_edge_amended_witness :
    keptAddOK (DEvent.keptAdd "b" [("a", ("b", 0))]) = true :=
  C3_unique_edge_amended [⟨"a", [false], (1, 1)⟩, ⟨"b", [false], (1, 2)⟩]
    (by decide) (DEvent.keptAdd "b" [("a", ("b", 0))]) (by decide)

/-! ### Claim C4 — report totals consistency -/

/-- Input records for the C4 analysis (same shape as the C1 run): pairwise
hash distances d(a,b) = 6, d(a,c) = 3, d(b,c) = 3; areas 1, 5, 4. -/
def c4A : ImageRecord := ⟨"a", [false, false, false, false, false, false, false, false], (1, 1)⟩

def c4B : ImageRecord := ⟨"b", [true, true, true, true, true, true, false, false], (5, 1)⟩

def c4C : ImageRecord := ⟨"c", [true, true, true, false, false, false, false, false], (2, 2)⟩

/-- C4 (counterexample): both halves of the claim fail on the code.
First half: `total_kept + total_duplicates == total_scanned` fails even for a
run in which every file hashes successfully — on the all-successful scan
`[c4A, c4B, c4C]` (distinct paths) the JSON totals are
`(total_scanned, total_kept, total_duplicates) = (3, 2, 2)` because path "c"
is counted in both maps, and `2 + 2 ≠ 3`.  Second half: on a run with one
decode failure (`[some c4A, none]`), `total_scanned = 2` — the count of ALL
enumerated files taken before hashing (line 201) — although only one file
hashed successfully, so `total_scanned` does NOT count only the successfully
hashed files. -/
theorem C4_report_totals_counterexample :
    (∀ f ∈ ([some c4A, some c4B, some c4C] : List (Option ImageRecord)), f.isSome = true) ∧
    ((([some c4A, some c4B, some c4C] : List (Option ImageRecord)).filterMap id).map
        ImageRecord.path).Nodup ∧
    (dedupeProcess [some c4A, some c4B, some c4C]).totals = some (3, 2, 2) ∧
    (2 + 2 : Nat) ≠ 3 ∧
    (dedupeProcess [some c4A, none]).totals = some (2, 1, 0) ∧
    (([some c4A, none] : List (Option ImageRecord)).filterMap id).length = 1 ∧
    (2 : Nat) ≠ 1 := by
  decide

/-- C4 (amended): for every non-empty run — with or without decode failures —
`total_scanned` is the count of ALL enumerated files (it is taken before
hashing, so failed files are still counted), and the reported totals are the
sizes of the two maps; moreover, when every enumerated file hashes
successfully and paths are distinct,
`total_kept + total_duplicates ≥ total_scanned` (equality can fail because a
path can be counted in both maps). -/
theorem C4_report_totals_amended (files : List (Option ImageRecord))
    (hne : files ≠ []) :
    (dedupeProcess files).totals =
      some (files.length, (dedupe (files.filterMap id)).kept.length,
            (dedupe (files.filterMap id)).duplicates.length) ∧
    ((∀ f ∈ files, f.isSome = true) →
      ((files.filterMap id).map ImageRecord.path).Nodup →
      files.length ≤ (dedupe (files.filterMap id)).kept.length +
                     (dedupe (files.filterMap id)).duplicates.length) := by
  have hlen0 : ¬ files.length = 0 := by
    intro h
    exact hne (List.length_eq_zero.mp h)
  constructor
  · simp [dedupeProcess, hlen0]
  · intro hall hnd
    have hcov : (files.filterMap id).map ImageRecord.path ⊆
        (dedupe (files.filterMap id)).kept.map Prod.fst ++
        (dedupe (files.filterMap id)).duplicates.map Prod.fst := by
      intro x hx
      obtain ⟨A, hA, rfl⟩ := List.mem_map.mp hx
      have h := clusterLoop_coverage (files.filterMap id) 0 ⟨[], [], []⟩ A hA
      have h' : containsKey A.path (dedupe (files.filterMap id)).kept = true ∨
          containsKey A.path (dedupe (files.filterMap id)).duplicates = true := by
        simpa [dedupe] using h
      rcases h' with h' | h'
      · exact List.mem_append.mpr (Or.inl ((containsKey_eq_true_iff _ _).mp h'))
      · exact List.mem_append.mpr (Or.inr ((containsKey_eq_true_iff _ _).mp h'))
    have hle := (List.subperm_of_subset hnd hcov).length_le
    rw [List.length_map, List.length_append, List.length_map, List.length_map] at hle
    calc files.length = (files.filterMap id).length :=
          (length_filterMap_id_of_all_isSome files hall).symm
      _ ≤ _ := hle

/-- Witness for C4 (amended): the totals conjunct at a concrete run WITH a
decode failure (`[some c4A, none]` — `total_scanned` counts the failed file),
and the inequality conjunct at a concrete all-successful one-file run. -/
theorem C4_report_totals_amended_witness :
    ((dedupeProcess [some c4A, none]).totals =
      some (([some c4A, none] : List (Option ImageRecord)).length,
            (dedupe (([some c4A, none] : List (Option ImageRecord)).filterMap id)).kept.length,
            (dedupe (([some c4A, none] : List (Option ImageRecord)).filterMap id)).duplicates.length)) ∧
    ([some c4A] : List (Option ImageRecord)).length ≤
      (dedupe (([some c4A] : List (Option ImageRecord)).filterMap id)).kept.length +
      (dedupe (([some c4A] : List (Option ImageRecord)).filterMap id)).duplicates.length :=
  ⟨(C4_report_totals_amended [some c4A, none] (by decide)).1,
   (C4_report_totals_amended [some c4A] (by decide)).2 (by decide) (by decide)⟩

/-! ### Claim C5 — tie-break determinism -/

/-- Input records for the C5 analysis: all hashes equal, areas 4, 2, 8. -/
def c5A : ImageRecord := ⟨"a", [false], (2, 2)⟩

def c5B : ImageRecord := ⟨"b", [false], (1, 2)⟩

def c5C : ImageRecord := ⟨"c", [false], (4, 2)⟩

/-- C5 (counterexample): in a larger run the strictly-greater-area record of a
within-threshold pair need NOT end as the survivor: in `[c5A, c5B, c5C]` the
pair (c5A, c5B) is within threshold with area(c5A) = 4 > 2 = area(c5B), yet
c5A ends the run demoted (in the duplicates map, not the kept map), because
the later record c5C (area 8) displaces it. -/
theorem C5_tiebreak_counterexample :
    (([c5A, c5B, c5C].map ImageRecord.path).Nodup) ∧
    hammingDistance c5A.hash c5B.hash ≤ HASH_DISTANCE_THRESHOLD ∧
    c5A.resolution ≠ c5B.resolution ∧
    c5B.resolution.1 * c5B.resolution.2 < c5A.resolution.1 * c5A.resolution.2 ∧
    containsKey c5A.path (dedupe [c5A, c5B, c5C]).kept = false ∧
    containsKey c5A.path (dedupe [c5A, c5B, c5C]).duplicates = true := by
  decide

/-- C5 (amended): for a run on exactly the two records, within threshold and
with different resolutions: the strictly greater pixel area survives (kept
map) and the other is demoted with an edge citing the survivor; on equal
areas with different resolution tuples, the earlier record `A` survives. -/
theorem C5_tiebreak_amended (A B : ImageRecord) (hp : A.path ≠ B.path)
    (hd : hammingDistance A.hash B.hash ≤ HASH_DISTANCE_THRESHOLD)
    (hr : A.resolution ≠ B.resolution) :
    (B.resolution.1 * B.resolution.2 < A.resolution.1 * A.resolution.2 →
      (dedupe [A, B]).kept = [(A.path, A)] ∧
      (dedupe [A, B]).duplicates = [(B.path, (A.path, hammingDistance A.hash B.hash))]) ∧
    (A.resolution.1 * A.resolution.2 < B.resolution.1 * B.resolution.2 →
      (dedupe [A, B]).kept = [(B.path, B)] ∧
      (dedupe [A, B]).duplicates = [(A.path, (B.path, hammingDistance A.hash B.hash))]) ∧
    (A.resolution.1 * A.resolution.2 = B.resolution.1 * B.resolution.2 →
      (dedupe [A, B]).kept = [(A.path, A)] ∧
      (dedupe [A, B]).duplicates = [(B.path, (A.path, hammingDistance A.hash B.hash))]) := by
  refine ⟨fun h => ?_, fun h => ?_, fun h => ?_⟩
  · rw [dedupe_pair_ge A B hd hr (Nat.le_of_lt h)]
    exact ⟨rfl, rfl⟩
  · rw [dedupe_pair_lt A B hp hd hr (Nat.not_le.mpr h)]
    exact ⟨rfl, rfl⟩
  · rw [dedupe_pair_ge A B hd hr (Nat.le_of_eq h.symm)]
    exact ⟨rfl, rfl⟩

/-- Witness for C5 (amended): concrete two-record run, area 4 beats area 2. -/
theorem C5_tiebreak_amended_witness :
    (dedupe [⟨"a", [false], (2, 2)⟩, ⟨"b", [false], (1, 2)⟩]).kept =
      [("a", ⟨"a", [false], (2, 2)⟩)] ∧
    (dedupe [⟨"a", [false], (2, 2)⟩, ⟨"b", [false], (1, 2)⟩]).duplicates =
      [("b", ("a", 0))] :=
  (C5_tiebreak_amended ⟨"a", [false], (2, 2)⟩ ⟨"b", [false], (1, 2)⟩
    (by decide) (by decide) (by decide)).1 (by decide)

/-! ### Claim C6 — cancellation and the pairwise pass -/

/-- Input records for the C6 analysis: hash distance 6 (independent). -/
def c6A : ImageRecord := ⟨"a", [false, false, false, false, false, false], (1, 1)⟩

def c6B : ImageRecord := ⟨"b", [true, true, true, true, true, true], (1, 1)⟩

/-- C6 (counterexample): the pairwise pass DOES contain a cancellation point —
the `self.running` check at the top of every outer iteration.  With
cancellation signalled after outer iteration 0 (flag true at 0, false from 1
on), the pass aborts (`completed = false`) and the kept map differs from the
uncancelled run's. -/
theorem C6_no_cancel_counterexample :
    (dedupeCancellable (fun i => i == 0) [c6A, c6B]).2 = false ∧
    (dedupeCancellable (fun i => i == 0) [c6A, c6B]).1.kept ≠ (dedupe [c6A, c6B]).kept := by
  decide

/-- C6 (amended): the pass checks the cancellation flag at the start of each
outer iteration; only when the flag stays set throughout does the cancellable
pass complete and agree with the uncancelled pass — a cancellation signalled
mid-pass aborts it with the maps in their partial state. -/
theorem C6_cancellation_amended (flag : Nat → Bool) (recs : List ImageRecord)
    (h : ∀ j : Nat, flag j = true) :
    dedupeCancellable flag recs = (dedupe recs, true) := by
  unfold dedupeCancellable dedupe
  rw [clusterLoop_flag_agree flag h recs 0 ⟨[], [], []⟩]
  have h2 := clusterLoop_true_completes recs 0 ⟨[], [], []⟩
  rcases hq : clusterLoop (fun _ => true) 0 recs ⟨[], [], []⟩ with ⟨st, b⟩
  rw [hq] at h2
  simp only at h2
  rw [h2]

/-- Witness for C6 (amended): an always-true flag on a concrete run. -/
theorem C6_cancellation_amended_witness :
    dedupeCancellable (fun _ => true) [⟨"a", [false], (1, 1)⟩] =
      (dedupe [⟨"a", [false], (1, 1)⟩], true) :=
  C6_cancellation_amended (fun _ => true) [⟨"a", [false], (1, 1)⟩] (fun _ => rfl)

/-! ### Claim C7 — threshold boundary -/

/-- Input records for the C7 analysis: d(a,b) = 3, d(b,c) = 5, d(a,c) = 8. -/
def c7A : ImageRecord := ⟨"a", [false, false, false, false, false, false, false, false], (3, 3)⟩

def c7B : ImageRecord := ⟨"b", [true, true, true, false, false, false, false, false], (2, 2)⟩

def c7C : ImageRecord := ⟨"c", [true, true, true, true, true, true, true, true], (1, 1)⟩

/-- C7 (counterexample): in a larger run, a pair at distance exactly
`THRESHOLD` with different resolutions need not produce an edge: in
`[c7A, c7B, c7C]`, d(c7B, c7C) = 5 = THRESHOLD, but c7B is demoted by c7A
first, so the pair (c7B, c7C) is never compared — no edge for the pair is
ever recorded and c7C stays independent. -/
theorem C7_threshold_counterexample :
    (([c7A, c7B, c7C].map ImageRecord.path).Nodup) ∧
    hammingDistance c7B.hash c7C.hash = HASH_DISTANCE_THRESHOLD ∧
    c7B.resolution ≠ c7C.resolution ∧
    pairEdge (dedupe [c7A, c7B, c7C]).events c7B.path c7C.path = false ∧
    containsKey c7C.path (dedupe [c7A, c7B, c7C]).duplicates = false := by
  decide

/-- C7 (amended): for a run on exactly the two records with different
resolutions, the threshold is inclusive: at distance `THRESHOLD` an edge is
recorded for the pair (one of the two is demoted), while at distance
`THRESHOLD + 1` no edge is recorded and both records are kept. -/
theorem C7_threshold_amended (A B : ImageRecord) (hp : A.path ≠ B.path)
    (hr : A.resolution ≠ B.resolution) :
    (hammingDistance A.hash B.hash = HASH_DISTANCE_THRESHOLD →
      pairEdge (dedupe [A, B]).events A.path B.path = true ∧
      (dedupe [A, B]).duplicates.length = 1) ∧
    (hammingDistance A.hash B.hash = HASH_DISTANCE_THRESHOLD + 1 →
      (dedupe [A, B]).duplicates = [] ∧
      (dedupe [A, B]).kept = [(A.path, A), (B.path, B)]) := by
  constructor
  · intro h
    by_cases ha : A.resolution.1 * A.resolution.2 ≥ B.resolution.1 * B.resolution.2
    · rw [dedupe_pair_ge A B (Nat.le_of_eq h) hr ha]
      exact ⟨by simp [pairEdge], rfl⟩
    · rw [dedupe_pair_lt A B hp (Nat.le_of_eq h) hr ha]
      exact ⟨by simp [pairEdge], rfl⟩
  · intro h
    have hd : ¬ hammingDistance A.hash B.hash ≤ HASH_DISTANCE_THRESHOLD := by
      rw [h]
      simp [HASH_DISTANCE_THRESHOLD]
    rw [dedupe_pair_far A B hp hd]
    exact ⟨rfl, rfl⟩

/-- Witness for C7 (amended): two records at distance exactly 5. -/
theorem C7_threshold_amended_witness :
    pairEdge (dedupe [⟨"a", [false, false, false, false, false, false], (2, 2)⟩,
                      ⟨"b", [true, true, true, true, true, false], (1, 1)⟩]).events "a" "b" = true ∧
    (dedupe [⟨"a", [false, false, false, false, false, false], (2, 2)⟩,
             ⟨"b", [true, true, true, true, true, false], (1, 1)⟩]).duplicates.length = 1 :=
  (C7_threshold_amended ⟨"a", [false, false, false, false, false, false], (2, 2)⟩
    ⟨"b", [true, true, true, true, true, false], (1, 1)⟩ (by decide) (by decide)).1 (by decide)

/-! ### Claim C8 — resolution-tie exemption -/

/-- C8: for records within threshold with identical `(width, height)`, the
comparison of the pair records no DuplicateEdge for either record — one inner
step on such a `B` leaves the cluster state completely unchanged, whatever
the current state — and a run on exactly two such records ends with both in
the kept map, an empty duplicates map, and no edge event at all. -/
theorem C8_resolution_tie (A B : ImageRecord) (hp : A.path ≠ B.path)
    (hr : A.resolution = B.resolution)
    (hd : hammingDistance A.hash B.hash ≤ HASH_DISTANCE_THRESHOLD) :
    (∀ rest : List ImageRecord, ∀ st : ClusterState,
      innerLoop A (B :: rest) st = innerLoop A rest st) ∧
    (dedupe [A, B]).kept = [(A.path, A), (B.path, B)] ∧
    (dedupe [A, B]).duplicates = [] ∧
    (dedupe [A, B]).events = [DEvent.keptAdd A.path [], DEvent.keptAdd B.path []] := by
  refine ⟨fun rest st => ?_, ?_⟩
  · simp [innerLoop, hr, ite_self]
  · rw [dedupe_pair_resEq A B hp hr]
    exact ⟨rfl, rfl, rfl⟩

/-- Witness for C8 at a concrete pair with distance 1 and equal resolution. -/
theorem C8_resolution_tie_witness :
    (innerLoop (⟨"a", [false], (1, 1)⟩ : ImageRecord)
        [⟨"b", [true], (1, 1)⟩] ⟨[], [], []⟩ =
      innerLoop (⟨"a", [false], (1, 1)⟩ : ImageRecord) [] ⟨[], [], []⟩) ∧
    (dedupe [⟨"a", [false], (1, 1)⟩, ⟨"b", [true], (1, 1)⟩]).kept =
      [("a", ⟨"a", [false], (1, 1)⟩), ("b", ⟨"b", [true], (1, 1)⟩)] ∧
    (dedupe [⟨"a", [false], (1, 1)⟩, ⟨"b", [true], (1, 1)⟩]).duplicates = [] ∧
    (dedupe [⟨"a", [false], (1, 1)⟩, ⟨"b", [true], (1, 1)⟩]).events =
      [DEvent.keptAdd "a" [], DEvent.keptAdd "b" []] := by
  have h := C8_resolution_tie ⟨"a", [false], (1, 1)⟩ ⟨"b", [true], (1, 1)⟩
    (by decide) (by decide) (by decide)
  exact ⟨h.1 [] ⟨[], [], []⟩, h.2⟩

/-! ### Claim C9 — Materializer idempotence -/

/-- C9: the kept-file copy loop never overwrites an existing destination
file (its content under `lookupKey` is unchanged by a run), and running the
loop twice on the same kept list produces exactly the same output-directory
state as running it once. -/
theorem C9_materializer_idempotent (basename content : String → String)
    (ks : List ImageRecord) (fs : List (String × String)) (dst : String)
    (h : containsKey dst fs = true) :
    lookupKey dst (copyKeptImages basename content ks fs) = lookupKey dst fs ∧
    copyKeptImages basename content ks (copyKeptImages basename content ks fs) =
      copyKeptImages basename content ks fs := by
  constructor
  · exact copyKeptImages_preserves basename content ks fs dst h
  · exact copyKeptImages_noop basename content ks _
      (fun k hk => copyKeptImages_ensures basename content ks fs k hk)

/-- Witness for C9: one kept record, one pre-existing destination file. -/
theorem C9_materializer_idempotent_witness :
    lookupKey "d"
        (copyKeptImages id (fun _ => "new") [⟨"d", [false], (1, 1)⟩] [("d", "old")]) =
      lookupKey "d" [("d", "old")] ∧
    copyKeptImages id (fun _ => "new") [⟨"d", [false], (1, 1)⟩]
        (copyKeptImages id (fun _ => "new") [⟨"d", [false], (1, 1)⟩] [("d", "old")]) =
      copyKeptImages id (fun _ => "new") [⟨"d", [false], (1, 1)⟩] [("d", "old")] :=
  C9_materializer_idempotent id (fun _ => "new") [⟨"d", [false], (1, 1)⟩]
    [("d", "old")] "d" (by decide)

/-! ### Claim C10 — empty scan terminates the run before any artifact -/

/-- C10: when the enumerator finds zero candidate image files, the run
returns immediately after the scan: the trash directory is not created, no
report artifact is written, and no totals summary is produced. -/
theorem C10_empty_scan (files : List (Option ImageRecord))
    (h : files.length = 0) :
    dedupeProcess files =
      { trashCreated := false, reports := [], totals := none } := by
  simp [dedupeProcess, h]

/-- Witness for C10 at the empty enumeration. -/
theorem C10_empty_scan_witness :
    dedupeProcess [] = { trashCreated := false, reports := [], totals := none } :=
  C10_empty_scan [] rfl

end ImageDedup
